import Mathlib

/-!
# cw: colour parsing and the X11 client sequence

A shallow embedding of `cw.go`.

* Go strings are byte sequences (`List Nat`); `len` is the byte length.
* Fixed-width unsigned arithmetic is arithmetic on `Nat` with an explicit
  `% 2 ^ w` wherever the Go operation can wrap.
* `main` is embedded as a function from the values the outside world supplies
  (arguments, connection result, reply to the checked request, successive
  `WaitForEvent` results) to the ordered list of externally visible steps.
-/

namespace Cw

/-! ## Strings and the library functions `parseColor` calls -/

/-- UTF-8 bytes of a string literal, as Go stores it. -/
def bytes (s : String) : List Nat :=
  s.toList.flatMap (fun c => (String.utf8EncodeChar c).map UInt8.toNat)

/-- Test `'A' <= c && c <= 'Z'`. -/
def isUpperByte (c : Nat) : Bool := decide (0x41 ≤ c ∧ c ≤ 0x5A)

/-- Test `'a' <= c && c <= 'z'`. -/
def isLowerByte (c : Nat) : Bool := decide (0x61 ≤ c ∧ c ≤ 0x7A)

/-- ASCII step of `strings.ToLower`: `c += 'a' - 'A'` on an upper-case letter. -/
def lowerByte (c : Nat) : Nat := if isUpperByte c then c + 0x20 else c

/-- ASCII step of `strings.ToUpper`: `c -= 'a' - 'A'` on a lower-case letter. -/
def upperByte (c : Nat) : Nat := if isLowerByte c then c - 0x20 else c

/-- Go's `strings.ToLower`. A string whose bytes are all below `utf8.RuneSelf`
(0x80) takes the library's ASCII path: returned unchanged when it has no
upper-case letter, otherwise with every `'A'..'Z'` byte shifted. Any other string
is handed to `strings.Map(unicode.ToLower, s)`; the Unicode case tables are not
part of this repository, so that mapping is the parameter `mapLower`. -/
def ToLower (mapLower : List Nat → List Nat) (s : List Nat) : List Nat :=
  if s.all (fun c => decide (c < 0x80)) then
    if s.any isUpperByte then s.map lowerByte else s
  else mapLower s

/-- Go's `strings.ToUpper` on an ASCII string; the non-ASCII path is the
parameter `mapUpper`, as for `ToLower`. -/
def ToUpper (mapUpper : List Nat → List Nat) (s : List Nat) : List Nat :=
  if s.all (fun c => decide (c < 0x80)) then
    if s.any isLowerByte then s.map upperByte else s
  else mapUpper s

/-- Go's `strings.HasPrefix`: `len(s) >= len(pre) && s[:len(pre)] == pre`. -/
def HasPrefix (s pre : List Nat) : Bool :=
  decide (s.length ≥ pre.length) && decide (s.take pre.length = pre)

/-- Go's `strings.TrimPrefix`: drops `pre` once when `s` starts with it. -/
def TrimPrefix (s pre : List Nat) : List Nat :=
  if HasPrefix s pre then s.drop pre.length else s

/-- The sentinel errors a `strconv.NumError` wraps. -/
inductive StrconvErr where
  | ErrSyntax
  | ErrRange
  | invalidBitSize (bitSize : Nat)
  deriving DecidableEq

/-- The error values `parseColor` can return: a `*strconv.NumError`
(function name, offending input, cause) or the result of `fmt.Errorf`. -/
inductive GoError where
  | NumError (Func : List Nat) (Num : List Nat) (Err : StrconvErr)
  | Errorf (msg : List Nat)
  deriving DecidableEq

/-- Helper `syntaxError` of strconv. -/
def syntaxError (fn str : List Nat) : GoError := GoError.NumError fn str StrconvErr.ErrSyntax

/-- Helper `rangeError` of strconv. -/
def rangeError (fn str : List Nat) : GoError := GoError.NumError fn str StrconvErr.ErrRange

/-- Helper `bitSizeError` of strconv. -/
def bitSizeError (fn str : List Nat) (bitSize : Nat) : GoError :=
  GoError.NumError fn str (StrconvErr.invalidBitSize bitSize)

/-- The name `strconv.ParseUint` reports in its errors. -/
def fnParseUint : List Nat := bytes "ParseUint"

/-- Helper `lower` of strconv: `c | ('x' - 'X')`. -/
def lower (c : Nat) : Nat := c ||| 0x20

/-- Digit value `ParseUint` assigns to the byte `c`, or `none` in the `default`
branch of its switch (base 16: the underscore case needs base 0). -/
def digitVal (c : Nat) : Option Nat :=
  if 0x30 ≤ c ∧ c ≤ 0x39 then some (c - 0x30)
  else if 0x61 ≤ lower c ∧ lower c ≤ 0x7A then some (lower c - 0x61 + 10)
  else none

/-- Constant `cutoff` of `ParseUint` at base 16: `maxUint64/16 + 1`. -/
def cutoff : Nat := (2 ^ 64 - 1) / 16 + 1

/-- The digit loop of `strconv.ParseUint` at base 16, over the bytes still to be
read, with the accumulator `n` (a `uint64`). -/
def parseUintLoop (s0 : List Nat) (maxVal : Nat) : List Nat → Nat → Nat × Option GoError
  | [], n => (n, none)
  | c :: cs, n =>
    match digitVal c with
    | none => (0, some (syntaxError fnParseUint s0))
    | some d =>
      if d ≥ 16 then (0, some (syntaxError fnParseUint s0))
      else if n ≥ cutoff then (maxVal, some (rangeError fnParseUint s0))
      else
        let n16 := (n * 16) % 2 ^ 64
        let n1 := (n16 + d) % 2 ^ 64
        if n1 < n16 ∨ n1 > maxVal then (maxVal, some (rangeError fnParseUint s0))
        else parseUintLoop s0 maxVal cs n1

/-- Go's `strconv.ParseUint(s, 16, bitSize)`: base 16 is the only base
`parseColor` passes. Returns the `uint64` and the error (`none` for `nil`). -/
def ParseUint (s : List Nat) (bitSize : Nat) : Nat × Option GoError :=
  if s = [] then (0, some (syntaxError fnParseUint s))
  else
    let bitSize1 := if bitSize = 0 then 64 else bitSize
    if bitSize1 > 64 then (0, some (bitSizeError fnParseUint s bitSize1))
    else
      let maxVal := ((1 <<< bitSize1) % 2 ^ 64 + 2 ^ 64 - 1) % 2 ^ 64
      parseUintLoop s maxVal s 0

/-- Go's `%d` verb on an unsigned integer. -/
def fmtD (n : Nat) : List Nat := bytes (Nat.repr n)

/-! ## `cw.go`: the colour parser -/

/-- Function `expandShortColor` of `cw.go`. The argument is a `uint16`; every
shift and the sum are taken in `uint32`. In Go `<<` and `&` bind tighter than
`+` and associate to the left, so the body is a sum of five masked shifts. -/
def expandShortColor (n16 : Nat) : Nat :=
  let n := n16
  (((n <<< 16) % 2 ^ 32 &&& 0xf0000000) +
    ((n <<< 12) % 2 ^ 32 &&& 0x0ff00000) +
    ((n <<< 8) % 2 ^ 32 &&& 0x000ff000) +
    ((n <<< 4) % 2 ^ 32 &&& 0x00000ff0) +
    (n &&& 0x0000000f)) % 2 ^ 32

/-- Function `parseColor` of `cw.go`: the `uint32` and the error it returns. -/
def parseColor (mapLower : List Nat → List Nat) (s : List Nat) : Nat × Option GoError :=
  let s := TrimPrefix (TrimPrefix (ToLower mapLower s) (bytes "0x")) (bytes "#")
  match s.length with
  | 3 =>
    let (i, err) := ParseUint s 12
    (expandShortColor ((0xf000 + (i &&& 0x0fff) % 2 ^ 16) % 2 ^ 16), err)
  | 4 =>
    let (i, err) := ParseUint s 16
    (expandShortColor ((i &&& 0xffff) % 2 ^ 16), err)
  | 6 =>
    let (i, err) := ParseUint s 24
    ((0xff000000 + i % 2 ^ 32) % 2 ^ 32, err)
  | 8 =>
    let (i, err) := ParseUint s 32
    (i % 2 ^ 32, err)
  | len => (0, some (GoError.Errorf (bytes "invalid length: " ++ fmtD len)))

/-- The string `parseColor` dispatches on: lower-cased, then one leading `0x`
removed, then one leading `#` removed. -/
def stripped (mapLower : List Nat → List Nat) (s : List Nat) : List Nat :=
  TrimPrefix (TrimPrefix (ToLower mapLower s) (bytes "0x")) (bytes "#")

/-! ## `cw.go`: `main` -/

/-- Go's `path.Base`: the last element of a slash-separated path. -/
def pathBase (p : List Nat) : List Nat :=
  if p = [] then bytes "."
  else
    let p1 := (p.reverse.dropWhile (fun c => decide (c = 0x2F))).reverse
    let p2 := (p1.reverse.takeWhile (fun c => decide (c ≠ 0x2F))).reverse
    if p2 = [] then bytes "/" else p2

/-- The fields of the default screen that `main` reads. -/
structure ScreenInfo where
  Root : Nat
  RootDepth : Nat
  RootVisual : Nat
  deriving DecidableEq

/-- Everything the outside world supplies to one run of `main`. An event is
given by the text of its `String()`, an error by the text of its `Error()`;
`none` is Go's `nil`. -/
structure World where
  /-- Value of `os.Args[0]`. -/
  prog : List Nat
  /-- Value of `os.Args[1:]`. -/
  args : List (List Nat)
  /-- The error of `xgb.NewConn`. -/
  connErr : Option (List Nat)
  /-- Result of `setup.DefaultScreen`. -/
  screen : ScreenInfo
  /-- Result of `xproto.NewWindowId`. -/
  wid : Nat
  /-- The error of `MapWindowChecked(..).Check()`. -/
  mapErr : Option (List Nat)
  /-- Results of the successive `WaitForEvent` calls; when they run out the
  next call blocks. -/
  events : List (Option (List Nat) × Option (List Nat))

/-- One externally visible step of `main`, in program order. -/
inductive Step where
  | write (data : List Nat)
  | exit (code : Nat)
  | NewConn
  | Setup
  | DefaultScreen
  | NewWindowId
  | CreateWindow (Depth Wid Parent X Y Width Height BorderWidth Class Visual ValueMask : Nat)
      (ValueList : List Nat)
  | ChangeProperty (Mode Window Property Typ Format DataLen : Nat) (Data : List Nat)
  | ChangeWindowAttributes (Window ValueMask : Nat) (ValueList : List Nat)
  | MapWindowChecked (Window : Nat)
  | Check
  | WaitForEvent
  deriving DecidableEq

/-- How a run stands after its last step. -/
inductive Outcome where
  | exited (code : Nat)
  | returned
  | waiting
  deriving DecidableEq

/-- Constant `xproto.WindowClassInputOutput`, with its value in the X11 core protocol. -/
def WindowClassInputOutput : Nat := 1
/-- Constant `xproto.PropModeReplace`, with its value in the X11 core protocol. -/
def PropModeReplace : Nat := 0
/-- Constant `xproto.AtomWmName`, with its value in the X11 core protocol. -/
def AtomWmName : Nat := 39
/-- Constant `xproto.AtomString`, with its value in the X11 core protocol. -/
def AtomString : Nat := 31
/-- Constant `xproto.CwBackPixel`, with its value in the X11 core protocol. -/
def CwBackPixel : Nat := 2
/-- Constant `xproto.CwEventMask`, with its value in the X11 core protocol. -/
def CwEventMask : Nat := 2048
/-- Constant `xproto.EventMaskKeyPress`, with its value in the X11 core protocol. -/
def EventMaskKeyPress : Nat := 1
/-- Constant `xproto.EventMaskKeyRelease`, with its value in the X11 core protocol. -/
def EventMaskKeyRelease : Nat := 2
/-- Constant `xproto.EventMaskStructureNotify`, with its value in the X11 core protocol. -/
def EventMaskStructureNotify : Nat := 131072

/-- Function `usage` of `cw.go`. -/
def usage (prog : List Nat) : List Step :=
  [Step.write (bytes "Usage: " ++ pathBase prog ++ bytes " [color]\n")]

/-- The `for` loop closing `main`, run against the results the successive
`WaitForEvent` calls return. -/
def eventLoop : List (Option (List Nat) × Option (List Nat)) → List Step × Outcome
  | [] => ([Step.WaitForEvent], Outcome.waiting)
  | (ev, xerr) :: rest =>
    if ev = none ∧ xerr = none then
      ([Step.WaitForEvent,
        Step.write (bytes "Both event and error are nil. Exiting...\n"),
        Step.exit 0], Outcome.exited 0)
    else
      let evOut := match ev with
        | some e => [Step.write (bytes "Event: " ++ e ++ bytes "\n")]
        | none => []
      let errOut := match xerr with
        | some e => [Step.write (bytes "Error: " ++ e ++ bytes "\n")]
        | none => []
      let r := eventLoop rest
      (Step.WaitForEvent :: (evOut ++ errOut ++ r.1), r.2)

/-- The part of `main` from `xgb.NewConn()` on, with the background colour
already chosen. -/
def runClient (bgColor : Nat) (w : World) : List Step × Outcome :=
  match w.connErr with
  | some e => ([Step.NewConn, Step.write (e ++ bytes "\n")], Outcome.returned)
  | none =>
    let screen := w.screen
    let wid := w.wid
    let title := bytes "cw"
    let mapOut := match w.mapErr with
      | some e =>
        Step.write (bytes "Checked Error for mapping window " ++ fmtD wid ++ bytes ": " ++ e ++
          bytes "\n")
      | none => Step.write (bytes "Map window " ++ fmtD wid ++ bytes " successful!\n")
    let r := eventLoop w.events
    ([Step.NewConn, Step.Setup, Step.DefaultScreen, Step.NewWindowId,
      Step.CreateWindow screen.RootDepth wid screen.Root 0 0 500 500 0
        WindowClassInputOutput screen.RootVisual 0 [],
      Step.ChangeProperty PropModeReplace wid AtomWmName AtomString 8 title.length title,
      Step.ChangeWindowAttributes wid (CwBackPixel ||| CwEventMask)
        [bgColor, EventMaskStructureNotify ||| EventMaskKeyPress ||| EventMaskKeyRelease],
      Step.MapWindowChecked wid, Step.Check, mapOut] ++ r.1, r.2)

/-- Function `main` of `cw.go`: the steps of one run and how it ends. -/
def main (mapLower : List Nat → List Nat) (w : World) : List Step × Outcome :=
  match w.args with
  | [] => runClient 0xffffffff w
  | [a] =>
    match parseColor mapLower a with
    | (_, some _) =>
      ([Step.write (bytes "Invalid color: " ++ a ++ bytes "\n"), Step.exit 1], Outcome.exited 1)
    | (bgColor, none) => runClient bgColor w
  | _ => (usage w.prog ++ [Step.exit 1], Outcome.exited 1)

/-! ## Vocabulary of the statements about `main` -/

/-- The protocol requests among the steps. -/
def Step.isRequest : Step → Bool
  | Step.CreateWindow .. => true
  | Step.ChangeProperty .. => true
  | Step.ChangeWindowAttributes .. => true
  | Step.MapWindowChecked _ => true
  | _ => false

/-- The steps of a run that come before its first `WaitForEvent`. -/
def beforeLoop (t : List Step) : List Step :=
  t.takeWhile (fun st => decide (st ≠ Step.WaitForEvent))

/-- The lines the loop prints for one `WaitForEvent` result, in the words of the
specification: `Event: <event>` when the event is present, then
`Error: <error>` when the error is present. -/
def linesFor (r : Option (List Nat) × Option (List Nat)) : List Step :=
  (match r.1 with
    | some e => [Step.write (bytes "Event: " ++ e ++ bytes "\n")]
    | none => []) ++
  (match r.2 with
    | some e => [Step.write (bytes "Error: " ++ e ++ bytes "\n")]
    | none => [])

/-- The closing line and the exit of a run whose connection closed. -/
def closing : List Step :=
  [Step.write (bytes "Both event and error are nil. Exiting...\n"), Step.exit 0]

/-! ## Vocabulary of the statements about the colour parser -/

/-- A byte that is one of `0-9`, `a-f`, `A-F`. -/
def isHexDigit (c : Nat) : Prop :=
  (0x30 ≤ c ∧ c ≤ 0x39) ∨ (0x61 ≤ c ∧ c ≤ 0x66) ∨ (0x41 ≤ c ∧ c ≤ 0x46)

instance (c : Nat) : Decidable (isHexDigit c) := by unfold isHexDigit; infer_instance

/-- A byte that is one of `0-9`, `a-f`. -/
def isLowerHexDigit (c : Nat) : Prop :=
  (0x30 ≤ c ∧ c ≤ 0x39) ∨ (0x61 ≤ c ∧ c ≤ 0x66)

instance (c : Nat) : Decidable (isLowerHexDigit c) := by unfold isLowerHexDigit; infer_instance

/-- The value of one hexadecimal digit. -/
def hexDigitValue (c : Nat) : Nat :=
  if 0x30 ≤ c ∧ c ≤ 0x39 then c - 0x30
  else if 0x61 ≤ c ∧ c ≤ 0x66 then c - 0x61 + 10
  else c - 0x41 + 10

/-- The number a string of hexadecimal digits denotes, most significant first. -/
def hexValue (s : List Nat) : Nat := s.foldl (fun acc c => acc * 16 + hexDigitValue c) 0

/-- The lower-case hexadecimal digit for a value below 16. -/
def hexChar (d : Nat) : Nat := if d < 10 then 0x30 + d else 0x61 + (d - 10)

/-- A 32-bit value written as eight lower-case hexadecimal digits. -/
def hex8 (v : Nat) : List Nat :=
  [hexChar (v / 2 ^ 28 % 16), hexChar (v / 2 ^ 24 % 16), hexChar (v / 2 ^ 20 % 16),
   hexChar (v / 2 ^ 16 % 16), hexChar (v / 2 ^ 12 % 16), hexChar (v / 2 ^ 8 % 16),
   hexChar (v / 2 ^ 4 % 16), hexChar (v % 16)]

/-- One leading `0x` removed if present, in the words of the specification. -/
def dropLeading0x : List Nat → List Nat
  | 0x30 :: 0x78 :: rest => rest
  | t => t

/-- One leading `#` removed if present, in the words of the specification. -/
def dropLeadingHash : List Nat → List Nat
  | 0x23 :: rest => rest
  | t => t

/-- The stripped form of the specification: the string lower-cased, then one
leading `0x` removed if present, then one leading `#` removed if present. -/
def specStripped (m : List Nat → List Nat) (s : List Nat) : List Nat :=
  dropLeadingHash (dropLeading0x (ToLower m s))

/-- The steps the specification lists for a run on an established connection,
up to the event loop: connection and screen queries, the three unchecked
requests, the checked map request with its `Check`, and the line reporting the
result of the check. -/
def setupSteps (bgColor : Nat) (w : World) : List Step :=
  [Step.NewConn, Step.Setup, Step.DefaultScreen, Step.NewWindowId,
    Step.CreateWindow w.screen.RootDepth w.wid w.screen.Root 0 0 500 500 0
      WindowClassInputOutput w.screen.RootVisual 0 [],
    Step.ChangeProperty PropModeReplace w.wid AtomWmName AtomString 8 2 (bytes "cw"),
    Step.ChangeWindowAttributes w.wid (CwBackPixel ||| CwEventMask)
      [bgColor, EventMaskStructureNotify ||| EventMaskKeyPress ||| EventMaskKeyRelease],
    Step.MapWindowChecked w.wid, Step.Check,
    match w.mapErr with
    | some e =>
      Step.write (bytes "Checked Error for mapping window " ++ bytes (Nat.repr w.wid)
        ++ bytes ": " ++ e ++ bytes "\n")
    | none => Step.write (bytes "Map window " ++ bytes (Nat.repr w.wid) ++ bytes " successful!\n")]

/-- A run with one colour argument, a connection that opens, a map request the
server rejects, one key event and then the closed connection. -/
def sampleWorld : World :=
  { prog := bytes "/usr/bin/cw", args := [bytes "#f00"], connErr := none,
    screen := { Root := 1, RootDepth := 24, RootVisual := 33 }, wid := 7,
    mapErr := some (bytes "BadWindow"),
    events := [(some (bytes "KeyPress"), none), (none, none)] }

/-! ## Bitwise arithmetic -/

/-- Masking with `w` ones placed at bit `k` selects the digits `k .. k+w-1`. -/
theorem land_mask (x k w : Nat) :
    x &&& (2 ^ k * (2 ^ w - 1)) = 2 ^ k * (x / 2 ^ k % 2 ^ w) := by
  apply Nat.eq_of_testBit_eq
  intro i
  rw [Nat.testBit_and, Nat.testBit_mul_pow_two, Nat.testBit_mul_pow_two,
    Nat.testBit_two_pow_sub_one, Nat.testBit_mod_two_pow, ← Nat.shiftRight_eq_div_pow,
    Nat.testBit_shiftRight]
  by_cases h : k ≤ i
  · have hk : k + (i - k) = i := by omega
    simp [h, hk, Bool.and_comm]
  · simp [h]

/-- An or with a value that fits below the shifted part is a sum. -/
theorem shl_or_eq_add (x y k : Nat) (hy : y < 2 ^ k) : (x <<< k) ||| y = x * 2 ^ k + y := by
  rw [Nat.shiftLeft_eq, Nat.mul_comm x, Nat.mul_add_lt_is_or hy]

/-- Duplicating a nibble into a byte multiplies it by 17. -/
theorem dup_nibble (a : Nat) (h : a < 16) : (a <<< 4 ||| a) = 17 * a := by
  rw [shl_or_eq_add a a 4 (by simpa using h)]
  omega

/-- Four bytes or-ed at their positions add up. -/
theorem or_bytes (A R G B : Nat) (hR : R < 256) (hG : G < 256) (hB : B < 256) :
    (A <<< 24) ||| (R <<< 16) ||| (G <<< 8) ||| B
      = A * 2 ^ 24 + R * 2 ^ 16 + G * 2 ^ 8 + B := by
  have e1 : (A <<< 24) ||| (R <<< 16) = (A * 2 ^ 8 + R) <<< 16 := by
    rw [Nat.shiftLeft_eq, Nat.shiftLeft_eq, Nat.shiftLeft_eq]
    have : A * 2 ^ 24 = 2 ^ 24 * A := Nat.mul_comm _ _
    rw [this, ← Nat.mul_add_lt_is_or (by omega) A]
    omega
  have e2 : ((A * 2 ^ 8 + R) <<< 16) ||| (G <<< 8) = ((A * 2 ^ 8 + R) * 2 ^ 8 + G) <<< 8 := by
    rw [Nat.shiftLeft_eq, Nat.shiftLeft_eq, Nat.shiftLeft_eq]
    have : (A * 2 ^ 8 + R) * 2 ^ 16 = 2 ^ 16 * (A * 2 ^ 8 + R) := Nat.mul_comm _ _
    rw [this, ← Nat.mul_add_lt_is_or (by omega) _]
    omega
  rw [e1, e2, shl_or_eq_add _ B 8 (by simpa using hB)]
  omega


theorem expand_terms (n : Nat) (h : n < 65536) :
    ((n <<< 16) % 2 ^ 32 &&& 0xf0000000) = (n / 4096 % 16) * 2 ^ 28 ∧
    ((n <<< 12) % 2 ^ 32 &&& 0x0ff00000) = (n / 4096 % 16) * 2 ^ 24 + (n / 256 % 16) * 2 ^ 20 ∧
    ((n <<< 8) % 2 ^ 32 &&& 0x000ff000) = (n / 256 % 16) * 2 ^ 16 + (n / 16 % 16) * 2 ^ 12 ∧
    ((n <<< 4) % 2 ^ 32 &&& 0x00000ff0) = (n / 16 % 16) * 2 ^ 8 + (n % 16) * 2 ^ 4 ∧
    (n &&& 0x0000000f) = n % 16 := by
  have h1 := land_mask ((n <<< 16) % 2 ^ 32) 28 4
  have h2 := land_mask ((n <<< 12) % 2 ^ 32) 20 8
  have h3 := land_mask ((n <<< 8) % 2 ^ 32) 12 8
  have h4 := land_mask ((n <<< 4) % 2 ^ 32) 4 8
  have h5 := land_mask n 0 4
  norm_num at h1 h2 h3 h4 h5
  norm_num
  rw [h1, h2, h3, h4, h5]
  simp only [Nat.shiftLeft_eq]
  clear h1 h2 h3 h4 h5
  refine ⟨by omega, by omega, by omega, by omega, trivial⟩


/-- Quotient of a number written as `q * m + rem` with `rem < m`. -/
theorem split_div (x q rem m : Nat) (hx : x = q * m + rem) (h : rem < m) : x / m = q := by
  subst hx
  rw [Nat.add_comm, Nat.add_mul_div_right _ _ (by omega), Nat.div_eq_of_lt h, Nat.zero_add]

/-- The quotients of a value with duplicated nibbles at each nibble boundary. -/
theorem nibble_digits (a r g b : Nat) (ha : a < 16) (hr : r < 16) (hg : g < 16) (hb : b < 16) :
    (17 * a * 16777216 + 17 * r * 65536 + 17 * g * 256 + 17 * b) / 268435456 = a ∧
    (17 * a * 16777216 + 17 * r * 65536 + 17 * g * 256 + 17 * b) / 16777216 = 17 * a ∧
    (17 * a * 16777216 + 17 * r * 65536 + 17 * g * 256 + 17 * b) / 1048576 = 272 * a + r ∧
    (17 * a * 16777216 + 17 * r * 65536 + 17 * g * 256 + 17 * b) / 65536
      = 4352 * a + 17 * r ∧
    (17 * a * 16777216 + 17 * r * 65536 + 17 * g * 256 + 17 * b) / 4096
      = 69632 * a + 272 * r + g ∧
    (17 * a * 16777216 + 17 * r * 65536 + 17 * g * 256 + 17 * b) / 256
      = 1114112 * a + 4352 * r + 17 * g ∧
    (17 * a * 16777216 + 17 * r * 65536 + 17 * g * 256 + 17 * b) / 16
      = 17825792 * a + 69632 * r + 272 * g + b := by
  refine ⟨?_, ?_, ?_, ?_, ?_, ?_, ?_⟩
  · exact split_div _ _ (a * 16777216 + 17 * r * 65536 + 17 * g * 256 + 17 * b) _
      (by omega) (by omega)
  · exact split_div _ _ (17 * r * 65536 + 17 * g * 256 + 17 * b) _ (by omega) (by omega)
  · exact split_div _ _ (r * 65536 + 17 * g * 256 + 17 * b) _ (by omega) (by omega)
  · exact split_div _ _ (17 * g * 256 + 17 * b) _ (by omega) (by omega)
  · exact split_div _ _ (g * 256 + 17 * b) _ (by omega) (by omega)
  · exact split_div _ _ (17 * b) _ (by omega) (by omega)
  · exact split_div _ _ b _ (by omega) (by omega)

/-- Closed form of `expandShortColor` on a 16-bit input. -/
theorem expandShortColor_eq (n : Nat) (h : n < 65536) :
    expandShortColor n
      = 17 * (n / 4096 % 16) * 2 ^ 24 + 17 * (n / 256 % 16) * 2 ^ 16
        + 17 * (n / 16 % 16) * 2 ^ 8 + 17 * (n % 16) := by
  obtain ⟨t1, t2, t3, t4, t5⟩ := expand_terms n h
  unfold expandShortColor
  simp only [t1, t2, t3, t4, t5]
  omega

/-- C7. For a 16-bit `n` with nibbles `a, r, g, b` (most significant first),
`expandShortColor n` is `(a<<4|a)<<24 | (r<<4|r)<<16 | (g<<4|g)<<8 | (b<<4|b)`;
the five masked shifts of the code add up to that value without wrapping; and
every nibble of the output equals the input nibble of its byte. -/
theorem expandShortColor_spec (n : Nat) (h : n < 65536) :
    expandShortColor n
        = ((n / 4096 % 16) <<< 4 ||| (n / 4096 % 16)) <<< 24
          ||| ((n / 256 % 16) <<< 4 ||| (n / 256 % 16)) <<< 16
          ||| ((n / 16 % 16) <<< 4 ||| (n / 16 % 16)) <<< 8
          ||| ((n % 16) <<< 4 ||| (n % 16)) ∧
    ((n <<< 16) % 2 ^ 32 &&& 0xf0000000) + ((n <<< 12) % 2 ^ 32 &&& 0x0ff00000) +
        ((n <<< 8) % 2 ^ 32 &&& 0x000ff000) + ((n <<< 4) % 2 ^ 32 &&& 0x00000ff0) +
        (n &&& 0x0000000f) = expandShortColor n ∧
    expandShortColor n < 2 ^ 32 ∧
    (expandShortColor n / 2 ^ 28 % 16 = n / 4096 % 16 ∧
      expandShortColor n / 2 ^ 24 % 16 = n / 4096 % 16) ∧
    (expandShortColor n / 2 ^ 20 % 16 = n / 256 % 16 ∧
      expandShortColor n / 2 ^ 16 % 16 = n / 256 % 16) ∧
    (expandShortColor n / 2 ^ 12 % 16 = n / 16 % 16 ∧
      expandShortColor n / 2 ^ 8 % 16 = n / 16 % 16) ∧
    (expandShortColor n / 2 ^ 4 % 16 = n % 16 ∧ expandShortColor n % 16 = n % 16) := by
  obtain ⟨t1, t2, t3, t4, t5⟩ := expand_terms n h
  have hv := expandShortColor_eq n h
  refine ⟨?_, ?_, ?_, ?_, ?_, ?_, ?_⟩
  · rw [dup_nibble _ (Nat.mod_lt _ (by norm_num)), dup_nibble _ (Nat.mod_lt _ (by norm_num)),
      dup_nibble _ (Nat.mod_lt _ (by norm_num)), dup_nibble _ (Nat.mod_lt _ (by norm_num)),
      or_bytes _ _ _ _ (by omega) (by omega) (by omega)]
    exact hv
  · rw [hv, t1, t2, t3, t4, t5]
    omega
  all_goals
    rw [hv]
    have ha : n / 4096 % 16 < 16 := Nat.mod_lt _ (by norm_num)
    have hr : n / 256 % 16 < 16 := Nat.mod_lt _ (by norm_num)
    have hg : n / 16 % 16 < 16 := Nat.mod_lt _ (by norm_num)
    have hb : n % 16 < 16 := Nat.mod_lt _ (by norm_num)
    clear t1 t2 t3 t4 t5 hv
    generalize n / 4096 % 16 = a at *
    generalize n / 256 % 16 = r at *
    generalize n / 16 % 16 = g at *
    generalize n % 16 = b at *
    simp only [Nat.reducePow]
    obtain ⟨d28, d24, d20, d16, d12, d8, d4⟩ := nibble_digits a r g b ha hr hg hb
    omega

/-- Instance of C7 at `0x0abc`, with the four documented values. -/
theorem expandShortColor_spec_witness :
    (0x0abc < 65536 ∧ expandShortColor 0x0abc = 0x00aabbcc) ∧
    expandShortColor 0x0fff = 0x00ffffff ∧ expandShortColor 0xffff = 0xffffffff ∧
    expandShortColor 0x10e2 = 0x1100ee22 :=
  ⟨⟨by decide, by
      have h := (expandShortColor_spec 0x0abc (by decide)).1
      rw [h]; decide⟩, by decide, by decide, by decide⟩

/-! ## The library functions on strings of hexadecimal digits -/

theorem bytes_0x : bytes "0x" = [0x30, 0x78] := by decide

theorem bytes_hash : bytes "#" = [0x23] := by decide

/-- On an ASCII string `ToLower` is the bytewise map, whichever branch it takes. -/
theorem ToLower_ascii (m : List Nat → List Nat) (s : List Nat) (h : ∀ c ∈ s, c < 0x80) :
    ToLower m s = s.map lowerByte := by
  unfold ToLower
  have hall : s.all (fun c => decide (c < 0x80)) = true := by
    simpa [List.all_eq_true] using h
  rw [if_pos hall]
  split
  · rfl
  · rename_i hany
    have hno : ∀ c ∈ s, isUpperByte c = false := by
      intro c hc
      by_contra hcon
      exact hany (List.any_eq_true.mpr ⟨c, hc, by simpa using hcon⟩)
    symm
    calc s.map lowerByte = s.map id := by
          apply List.map_congr_left
          intro c hc
          simp [lowerByte, hno c hc]
      _ = s := List.map_id s

theorem isHexDigit_lt (c : Nat) (h : isHexDigit c) : c < 0x80 := by
  unfold isHexDigit at h; omega

theorem lowerByte_hex (c : Nat) (h : isHexDigit c) : isLowerHexDigit (lowerByte c) := by
  unfold isHexDigit at h
  unfold isLowerHexDigit lowerByte isUpperByte
  split <;> rename_i hu <;> simp at hu <;> omega

theorem hexDigitValue_lowerByte (c : Nat) (h : isHexDigit c) :
    hexDigitValue (lowerByte c) = hexDigitValue c := by
  unfold isHexDigit at h
  unfold hexDigitValue lowerByte isUpperByte
  split <;> rename_i hu <;> simp at hu <;> split_ifs <;> omega

/-- A string of lower-case hexadecimal digits starts with neither `0x` nor `#`. -/
theorem TrimPrefix_hex (t : List Nat) (h : ∀ c ∈ t, isLowerHexDigit c) :
    TrimPrefix t (bytes "0x") = t ∧ TrimPrefix t (bytes "#") = t := by
  rw [bytes_0x, bytes_hash]
  unfold TrimPrefix HasPrefix
  constructor
  · match t, h with
    | [], _ => simp
    | [_], _ => simp
    | c1 :: c2 :: rest, h =>
      have h2 := h c2 (by simp)
      unfold isLowerHexDigit at h2
      have : c2 ≠ 0x78 := by omega
      simp [this]
  · match t, h with
    | [], _ => simp
    | c1 :: rest, h =>
      have h1 := h c1 (by simp)
      unfold isLowerHexDigit at h1
      have : c1 ≠ 0x23 := by omega
      simp [this]

/-- The string `parseColor` dispatches on, for an input of hexadecimal digits. -/
theorem stripped_hex (m : List Nat → List Nat) (s : List Nat) (h : ∀ c ∈ s, isHexDigit c) :
    stripped m s = s.map lowerByte := by
  unfold stripped
  rw [ToLower_ascii m s (fun c hc => isHexDigit_lt c (h c hc))]
  have hl : ∀ c ∈ s.map lowerByte, isLowerHexDigit c := by
    intro c hc
    obtain ⟨d, hd, rfl⟩ := List.mem_map.mp hc
    exact lowerByte_hex d (h d hd)
  rw [(TrimPrefix_hex _ hl).1, (TrimPrefix_hex _ hl).2]

/-- What `ParseUint` reads in a hexadecimal digit is that digit's value. -/
theorem digitVal_hex (c : Nat) (h : isHexDigit c) :
    digitVal c = some (hexDigitValue c) ∧ hexDigitValue c < 16 := by
  unfold isHexDigit at h
  rcases h with h | h | h
  · obtain ⟨h1, h2⟩ := h
    interval_cases c <;> decide
  · obtain ⟨h1, h2⟩ := h
    interval_cases c <;> decide
  · obtain ⟨h1, h2⟩ := h
    interval_cases c <;> decide

/-- Folding digits keeps the accumulator below the next power of 16. -/
theorem foldl_hex_bound (cs : List Nat) (n : Nat) (h : ∀ c ∈ cs, isHexDigit c) :
    cs.foldl (fun acc c => acc * 16 + hexDigitValue c) n + 1 ≤ (n + 1) * 16 ^ cs.length := by
  induction cs generalizing n with
  | nil => simp
  | cons c cs ih =>
    have hd := (digitVal_hex c (h c (by simp))).2
    have := ih (n * 16 + hexDigitValue c) (fun x hx => h x (by simp [hx]))
    simp only [List.foldl_cons, List.length_cons]
    calc _ ≤ (n * 16 + hexDigitValue c + 1) * 16 ^ cs.length := this
      _ ≤ ((n + 1) * 16) * 16 ^ cs.length := Nat.mul_le_mul_right _ (by omega)
      _ = (n + 1) * 16 ^ (cs.length + 1) := by rw [pow_succ]; ring

theorem hexValue_lt (s : List Nat) (h : ∀ c ∈ s, isHexDigit c) :
    hexValue s < 16 ^ s.length := by
  have := foldl_hex_bound s 0 h
  unfold hexValue
  omega

/-- The digit loop on hexadecimal digits that fit below `maxVal`: it reads them
all and reports no error. -/
theorem parseUintLoop_hex (s0 : List Nat) (maxVal : Nat) (hmax : maxVal < 2 ^ 64)
    (cs : List Nat) (n : Nat) (h : ∀ c ∈ cs, isHexDigit c)
    (hfit : (n + 1) * 16 ^ cs.length ≤ maxVal + 1) :
    parseUintLoop s0 maxVal cs n
      = (cs.foldl (fun acc c => acc * 16 + hexDigitValue c) n, none) := by
  induction cs generalizing n with
  | nil => simp [parseUintLoop]
  | cons c cs ih =>
    obtain ⟨hd, hlt⟩ := digitVal_hex c (h c (by simp))
    have hpos : 0 < 16 ^ cs.length := Nat.pow_pos (by norm_num)
    have hstep : (n * 16 + hexDigitValue c + 1) * 16 ^ cs.length ≤ maxVal + 1 := by
      calc _ ≤ ((n + 1) * 16) * 16 ^ cs.length := Nat.mul_le_mul_right _ (by omega)
        _ = (n + 1) * 16 ^ (cs.length + 1) := by rw [pow_succ]; ring
        _ ≤ maxVal + 1 := by simpa using hfit
    have hle : n * 16 + hexDigitValue c + 1 ≤ maxVal + 1 :=
      le_trans (Nat.le_mul_of_pos_right _ hpos) hstep
    have hcut : ¬ n ≥ cutoff := by unfold cutoff; norm_num at hmax ⊢; omega
    have hm1 : n * 16 % 2 ^ 64 = n * 16 := Nat.mod_eq_of_lt (by norm_num at hmax ⊢; omega)
    have hm2 : (n * 16 + hexDigitValue c) % 2 ^ 64 = n * 16 + hexDigitValue c :=
      Nat.mod_eq_of_lt (by norm_num at hmax ⊢; omega)
    have hok : ¬ (n * 16 + hexDigitValue c < n * 16 ∨ n * 16 + hexDigitValue c > maxVal) := by
      omega
    rw [parseUintLoop, hd]
    simp only [List.foldl_cons]
    rw [if_neg (by omega), if_neg hcut, hm1, hm2, if_neg hok]
    exact ih _ (fun x hx => h x (by simp [hx])) hstep

/-- Result of `ParseUint` on a non-empty string of hexadecimal digits short enough for the
bit size returns the number the string denotes and no error. -/
theorem ParseUint_hex (s : List Nat) (bitSize : Nat) (hb0 : 0 < bitSize) (hb : bitSize < 64)
    (hne : s ≠ []) (h : ∀ c ∈ s, isHexDigit c) (hfit : 16 ^ s.length ≤ 2 ^ bitSize) :
    ParseUint s bitSize = (hexValue s, none) := by
  unfold ParseUint
  have hpow : 2 ^ bitSize < 2 ^ 64 := Nat.pow_lt_pow_right (by norm_num) hb
  have hpos : 0 < 2 ^ bitSize := Nat.pow_pos (by norm_num)
  have hmv : ((1 <<< bitSize) % 2 ^ 64 + 2 ^ 64 - 1) % 2 ^ 64 = 2 ^ bitSize - 1 := by
    rw [Nat.shiftLeft_eq, Nat.one_mul, Nat.mod_eq_of_lt hpow]
    have : 2 ^ bitSize + 2 ^ 64 - 1 = (2 ^ bitSize - 1) + 2 ^ 64 := by omega
    rw [this, Nat.add_mod_right, Nat.mod_eq_of_lt (by omega)]
  rw [if_neg hne]
  simp only [if_neg (Nat.ne_of_gt hb0)]
  rw [if_neg (by omega), hmv]
  exact parseUintLoop_hex s _ (by omega) s 0 h (by omega)

/-! ## `parseColor` by stripped length -/

theorem parseColor_len3 (m : List Nat → List Nat) (s : List Nat)
    (h : (stripped m s).length = 3) :
    parseColor m s
      = (expandShortColor
          ((0xf000 + ((ParseUint (stripped m s) 12).1 &&& 0x0fff) % 2 ^ 16) % 2 ^ 16),
        (ParseUint (stripped m s) 12).2) := by
  unfold parseColor
  unfold stripped at h
  simp only [h]
  rfl

theorem parseColor_len4 (m : List Nat → List Nat) (s : List Nat)
    (h : (stripped m s).length = 4) :
    parseColor m s
      = (expandShortColor (((ParseUint (stripped m s) 16).1 &&& 0xffff) % 2 ^ 16),
        (ParseUint (stripped m s) 16).2) := by
  unfold parseColor
  unfold stripped at h
  simp only [h]
  rfl

theorem parseColor_len6 (m : List Nat → List Nat) (s : List Nat)
    (h : (stripped m s).length = 6) :
    parseColor m s
      = ((0xff000000 + (ParseUint (stripped m s) 24).1 % 2 ^ 32) % 2 ^ 32,
        (ParseUint (stripped m s) 24).2) := by
  unfold parseColor
  unfold stripped at h
  simp only [h]
  rfl

theorem parseColor_len8 (m : List Nat → List Nat) (s : List Nat)
    (h : (stripped m s).length = 8) :
    parseColor m s
      = ((ParseUint (stripped m s) 32).1 % 2 ^ 32, (ParseUint (stripped m s) 32).2) := by
  unfold parseColor
  unfold stripped at h
  simp only [h]
  rfl

theorem parseColor_other (m : List Nat → List Nat) (s : List Nat)
    (h3 : (stripped m s).length ≠ 3) (h4 : (stripped m s).length ≠ 4)
    (h6 : (stripped m s).length ≠ 6) (h8 : (stripped m s).length ≠ 8) :
    parseColor m s
      = (0, some (GoError.Errorf (bytes "invalid length: " ++ fmtD (stripped m s).length))) := by
  unfold parseColor
  unfold stripped at h3 h4 h6 h8
  simp only []
  rfl

theorem hexValue_map_lower (s : List Nat) (h : ∀ c ∈ s, isHexDigit c) :
    hexValue (s.map lowerByte) = hexValue s := by
  unfold hexValue
  generalize 0 = n
  induction s generalizing n with
  | nil => rfl
  | cons c cs ih =>
    simp only [List.map_cons, List.foldl_cons]
    rw [hexDigitValue_lowerByte c (h c (by simp))]
    exact ih (fun x hx => h x (by simp [hx])) _

/-- What `ParseUint` returns on the stripped form of a string of hexadecimal
digits that fits the bit size. -/
theorem ParseUint_stripped_hex (m : List Nat → List Nat) (s : List Nat) (bitSize : Nat)
    (hb0 : 0 < bitSize) (hb : bitSize < 64) (hne : s ≠ []) (h : ∀ c ∈ s, isHexDigit c)
    (hfit : 16 ^ s.length ≤ 2 ^ bitSize) :
    ParseUint (stripped m s) bitSize = (hexValue s, none) := by
  rw [stripped_hex m s h, ← hexValue_map_lower s h]
  apply ParseUint_hex _ _ hb0 hb
  · simpa using hne
  · intro c hc
    obtain ⟨d, hd, rfl⟩ := List.mem_map.mp hc
    have := lowerByte_hex d (h d hd)
    unfold isLowerHexDigit at this
    unfold isHexDigit
    omega
  · simpa using hfit

/-! ## The four accepted lengths -/

/-- C1. For three hexadecimal digits `c1 c2 c3` (either case) `parseColor`
returns no error and `expandShortColor (0xF000 + v)`, `v` the 12-bit number they
denote: the value with bytes `0xFF, rr, gg, bb`, whose top byte is `0xFF`. -/
theorem parseColor_rgb (m : List Nat → List Nat) (c1 c2 c3 : Nat)
    (h1 : isHexDigit c1) (h2 : isHexDigit c2) (h3 : isHexDigit c3) :
    parseColor m [c1, c2, c3] = (expandShortColor (0xF000 + hexValue [c1, c2, c3]), none) ∧
    hexValue [c1, c2, c3] < 2 ^ 12 ∧
    expandShortColor (0xF000 + hexValue [c1, c2, c3])
      = 0xFF * 2 ^ 24 + (hexDigitValue c1 * 16 + hexDigitValue c1) * 2 ^ 16
        + (hexDigitValue c2 * 16 + hexDigitValue c2) * 2 ^ 8
        + (hexDigitValue c3 * 16 + hexDigitValue c3) ∧
    expandShortColor (0xF000 + hexValue [c1, c2, c3]) / 2 ^ 24 = 0xFF := by
  have hall : ∀ c ∈ [c1, c2, c3], isHexDigit c := by
    intro c hc
    simp only [List.mem_cons, List.mem_singleton, List.not_mem_nil, or_false] at hc
    rcases hc with rfl | rfl | rfl <;> assumption
  have hv : hexValue [c1, c2, c3] < 2 ^ 12 := by
    have := hexValue_lt _ hall
    have e : [c1, c2, c3].length = 3 := rfl
    rw [e] at this
    omega
  have hp := ParseUint_stripped_hex m [c1, c2, c3] 12 (by norm_num) (by norm_num) (by simp) hall
    (by norm_num)
  have hlen : (stripped m [c1, c2, c3]).length = 3 := by rw [stripped_hex m _ hall]; simp
  have hmask : hexValue [c1, c2, c3] &&& 0x0fff = hexValue [c1, c2, c3] := by
    have := Nat.and_pow_two_sub_one_eq_mod (hexValue [c1, c2, c3]) 12
    norm_num at this hv ⊢
    rw [this]; omega
  have d1 := (digitVal_hex c1 h1).2
  have d2 := (digitVal_hex c2 h2).2
  have d3 := (digitVal_hex c3 h3).2
  have hval : hexValue [c1, c2, c3]
      = (hexDigitValue c1 * 16 + hexDigitValue c2) * 16 + hexDigitValue c3 := by
    simp [hexValue]
  have hexp := expandShortColor_eq (0xF000 + hexValue [c1, c2, c3]) (by norm_num at hv ⊢; omega)
  have hform : expandShortColor (0xF000 + hexValue [c1, c2, c3])
      = 0xFF * 2 ^ 24 + (hexDigitValue c1 * 16 + hexDigitValue c1) * 2 ^ 16
        + (hexDigitValue c2 * 16 + hexDigitValue c2) * 2 ^ 8
        + (hexDigitValue c3 * 16 + hexDigitValue c3) := by
    rw [hexp, hval]
    generalize hexDigitValue c1 = x1 at *
    generalize hexDigitValue c2 = x2 at *
    generalize hexDigitValue c3 = x3 at *
    simp only [Nat.reducePow]
    omega
  refine ⟨?_, hv, hform, ?_⟩
  · rw [parseColor_len3 m _ hlen, hp]
    simp only [hmask]
    congr 2
    norm_num at hv ⊢
    omega
  · rw [hform]
    generalize hexDigitValue c1 = x1 at *
    generalize hexDigitValue c2 = x2 at *
    generalize hexDigitValue c3 = x3 at *
    simp only [Nat.reducePow]
    omega

/-- Instance of C1 at the string `f0A`. -/
theorem parseColor_rgb_witness :
    (isHexDigit 0x66 ∧ isHexDigit 0x30 ∧ isHexDigit 0x41) ∧
    bytes "f0A" = [0x66, 0x30, 0x41] ∧
    parseColor id [0x66, 0x30, 0x41] = (0xFFFF00AA, none) :=
  ⟨by decide, by decide, by
    rw [(parseColor_rgb id 0x66 0x30 0x41 (by decide) (by decide) (by decide)).1]
    decide⟩

/-- C2. For four hexadecimal digits `c1 c2 c3 c4` (either case) `parseColor`
returns no error and `expandShortColor v`, `v` the 16-bit number they denote:
the value with bytes `aa, rr, gg, bb`. -/
theorem parseColor_argb (m : List Nat → List Nat) (c1 c2 c3 c4 : Nat)
    (h1 : isHexDigit c1) (h2 : isHexDigit c2) (h3 : isHexDigit c3) (h4 : isHexDigit c4) :
    parseColor m [c1, c2, c3, c4] = (expandShortColor (hexValue [c1, c2, c3, c4]), none) ∧
    hexValue [c1, c2, c3, c4] < 2 ^ 16 ∧
    expandShortColor (hexValue [c1, c2, c3, c4])
      = (hexDigitValue c1 * 16 + hexDigitValue c1) * 2 ^ 24
        + (hexDigitValue c2 * 16 + hexDigitValue c2) * 2 ^ 16
        + (hexDigitValue c3 * 16 + hexDigitValue c3) * 2 ^ 8
        + (hexDigitValue c4 * 16 + hexDigitValue c4) := by
  have hall : ∀ c ∈ [c1, c2, c3, c4], isHexDigit c := by
    intro c hc
    simp only [List.mem_cons, List.mem_singleton, List.not_mem_nil, or_false] at hc
    rcases hc with rfl | rfl | rfl | rfl <;> assumption
  have hv : hexValue [c1, c2, c3, c4] < 2 ^ 16 := by
    have := hexValue_lt _ hall
    have e : [c1, c2, c3, c4].length = 4 := rfl
    rw [e] at this
    omega
  have hp := ParseUint_stripped_hex m [c1, c2, c3, c4] 16 (by norm_num) (by norm_num) (by simp)
    hall (by norm_num)
  have hlen : (stripped m [c1, c2, c3, c4]).length = 4 := by rw [stripped_hex m _ hall]; simp
  have hmask : hexValue [c1, c2, c3, c4] &&& 0xffff = hexValue [c1, c2, c3, c4] := by
    have := Nat.and_pow_two_sub_one_eq_mod (hexValue [c1, c2, c3, c4]) 16
    norm_num at this hv ⊢
    rw [this]; omega
  have d1 := (digitVal_hex c1 h1).2
  have d2 := (digitVal_hex c2 h2).2
  have d3 := (digitVal_hex c3 h3).2
  have d4 := (digitVal_hex c4 h4).2
  have hval : hexValue [c1, c2, c3, c4]
      = ((hexDigitValue c1 * 16 + hexDigitValue c2) * 16 + hexDigitValue c3) * 16
        + hexDigitValue c4 := by
    simp [hexValue]
  have hexp := expandShortColor_eq (hexValue [c1, c2, c3, c4]) (by norm_num at hv ⊢; omega)
  refine ⟨?_, hv, ?_⟩
  · rw [parseColor_len4 m _ hlen, hp]
    simp only [hmask]
    congr 2
    norm_num at hv ⊢
    omega
  · rw [hexp, hval]
    generalize hexDigitValue c1 = x1 at *
    generalize hexDigitValue c2 = x2 at *
    generalize hexDigitValue c3 = x3 at *
    generalize hexDigitValue c4 = x4 at *
    simp only [Nat.reducePow]
    omega

/-- Instance of C2 at `10e2`, with the other documented values. -/
theorem parseColor_argb_witness :
    (isHexDigit 0x31 ∧ isHexDigit 0x30 ∧ isHexDigit 0x65 ∧ isHexDigit 0x32) ∧
    bytes "10e2" = [0x31, 0x30, 0x65, 0x32] ∧
    parseColor id [0x31, 0x30, 0x65, 0x32] = (0x1100ee22, none) ∧
    parseColor id (bytes "0fff") = (0x00ffffff, none) ∧
    parseColor id (bytes "ffff") = (0xffffffff, none) ∧
    parseColor id (bytes "0abc") = (0x00aabbcc, none) :=
  ⟨by decide, by decide, by
    rw [(parseColor_argb id 0x31 0x30 0x65 0x32 (by decide) (by decide) (by decide)
      (by decide)).1]
    decide, by decide, by decide, by decide⟩

/-- C3. For a string of six hexadecimal digits (either case) `parseColor`
returns no error and `0xFF000000 | v`, `v` the 24-bit number it denotes; the
code's sum `0xff000000 + v` does not wrap, its top byte is `0xFF` and its low 24
bits are `v`. -/
theorem parseColor_rrggbb (m : List Nat → List Nat) (s : List Nat) (hlen : s.length = 6)
    (hhex : ∀ c ∈ s, isHexDigit c) :
    parseColor m s = (0xFF000000 ||| hexValue s, none) ∧
    hexValue s < 2 ^ 24 ∧
    0xFF000000 ||| hexValue s = 0xFF000000 + hexValue s ∧
    0xFF000000 + hexValue s < 2 ^ 32 ∧
    (0xFF000000 ||| hexValue s) / 2 ^ 24 = 0xFF ∧
    (0xFF000000 ||| hexValue s) % 2 ^ 24 = hexValue s := by
  have hv : hexValue s < 2 ^ 24 := by
    have := hexValue_lt _ hhex
    rw [hlen] at this
    omega
  have hne : s ≠ [] := by intro e; rw [e] at hlen; simp at hlen
  have hp := ParseUint_stripped_hex m s 24 (by norm_num) (by norm_num) hne hhex
    (by rw [hlen]; norm_num)
  have hl : (stripped m s).length = 6 := by rw [stripped_hex m _ hhex]; simpa using hlen
  have hor : 0xFF000000 ||| hexValue s = 0xFF000000 + hexValue s := by
    have := Nat.mul_add_lt_is_or hv 0xFF
    norm_num at this ⊢
    exact this.symm
  refine ⟨?_, hv, hor, ?_, ?_, ?_⟩
  · rw [parseColor_len6 m _ hl, hp, hor]
    congr 1
    norm_num at hv ⊢
    omega
  · norm_num at hv ⊢; omega
  · rw [hor]; norm_num at hv ⊢; omega
  · rw [hor]; norm_num at hv ⊢; omega

/-- Instance of C3 at `FF0000`. -/
theorem parseColor_rrggbb_witness :
    ((bytes "FF0000").length = 6 ∧ ∀ c ∈ bytes "FF0000", isHexDigit c) ∧
    parseColor id (bytes "FF0000") = (0xffff0000, none) :=
  ⟨by decide, by
    rw [(parseColor_rrggbb id (bytes "FF0000") (by decide) (by decide)).1]
    decide⟩

/-- A byte whose `lower` is at most `'z'` is an ASCII byte. -/
theorem lt_of_lower_le (c : Nat) (h : lower c ≤ 0x7A) : c < 128 := by
  unfold lower at h
  have h1 : c = 2 ^ 7 * (c / 128) + c % 128 := by norm_num; omega
  have h2 : c % 128 < 2 ^ 7 := by norm_num; omega
  have h3 : (c % 128 ||| 0x20) < 2 ^ 7 := Nat.or_lt_two_pow h2 (by norm_num)
  have h4 : c ||| 0x20 = 2 ^ 7 * (c / 128) + (c % 128 ||| 0x20) := by
    conv_lhs => rw [h1]
    rw [Nat.mul_add_lt_is_or h2, Nat.or_assoc, ← Nat.mul_add_lt_is_or h3]
  rw [h4] at h
  norm_num at h
  omega

/-- Outside the hexadecimal digits `ParseUint` finds no digit below 16. -/
theorem digitVal_nonhex (c : Nat) (h : ¬ isHexDigit c) :
    digitVal c = none ∨ ∃ d, digitVal c = some d ∧ d ≥ 16 := by
  by_cases hl : lower c ≤ 0x7A
  · have hc := lt_of_lower_le c hl
    clear hl
    interval_cases c <;> first | (exfalso; exact h (by decide)) | decide
  · left
    unfold digitVal
    have : 0x39 < c := by
      by_contra hc
      have hc : c ≤ 0x39 := by omega
      apply hl
      unfold lower
      interval_cases c <;> decide
    rw [if_neg (by omega), if_neg (by omega)]

/-- The digit loop stops with a syntax error and the value 0 at a byte that is
no hexadecimal digit, when the digits before it cannot overflow. -/
theorem parseUintLoop_bad (s0 : List Nat) (maxVal : Nat) (hmax : maxVal < 2 ^ 64)
    (cs : List Nat) (n : Nat) (hbad : ∃ c ∈ cs, ¬ isHexDigit c)
    (hfit : (n + 1) * 16 ^ cs.length ≤ (maxVal + 1) * 16) :
    parseUintLoop s0 maxVal cs n = (0, some (syntaxError fnParseUint s0)) := by
  induction cs generalizing n with
  | nil => obtain ⟨c, hc, _⟩ := hbad; simp at hc
  | cons c cs ih =>
    by_cases hc : isHexDigit c
    · obtain ⟨hd, hlt⟩ := digitVal_hex c hc
      have hbad2 : ∃ x ∈ cs, ¬ isHexDigit x := by
        obtain ⟨x, hx, hxn⟩ := hbad
        rcases List.mem_cons.mp hx with rfl | hx
        · exact absurd hc hxn
        · exact ⟨x, hx, hxn⟩
      have hlen : 1 ≤ cs.length := by
        obtain ⟨x, hx, _⟩ := hbad2
        exact List.length_pos_of_mem hx
      have h16 : 16 ≤ 16 ^ cs.length := by
        calc 16 = 16 ^ 1 := by norm_num
          _ ≤ 16 ^ cs.length := Nat.pow_le_pow_right (by norm_num) hlen
      have hfit1 : (n + 1) * 16 ^ cs.length ≤ maxVal + 1 := by
        have : (n + 1) * 16 ^ cs.length * 16 ≤ (maxVal + 1) * 16 := by
          calc (n + 1) * 16 ^ cs.length * 16 = (n + 1) * 16 ^ (cs.length + 1) := by
                rw [pow_succ]; ring
            _ ≤ (maxVal + 1) * 16 := by simpa using hfit
        omega
      have hle : (n + 1) * 16 ≤ maxVal + 1 :=
        le_trans (Nat.mul_le_mul_left _ h16) hfit1
      have hstep : (n * 16 + hexDigitValue c + 1) * 16 ^ cs.length ≤ (maxVal + 1) * 16 := by
        calc _ ≤ ((n + 1) * 16) * 16 ^ cs.length := Nat.mul_le_mul_right _ (by omega)
          _ = (n + 1) * 16 ^ (cs.length + 1) := by rw [pow_succ]; ring
          _ ≤ (maxVal + 1) * 16 := by simpa using hfit
      have hcut : ¬ n ≥ cutoff := by unfold cutoff; norm_num at hmax ⊢; omega
      have hm1 : n * 16 % 2 ^ 64 = n * 16 := Nat.mod_eq_of_lt (by norm_num at hmax ⊢; omega)
      have hm2 : (n * 16 + hexDigitValue c) % 2 ^ 64 = n * 16 + hexDigitValue c :=
        Nat.mod_eq_of_lt (by norm_num at hmax ⊢; omega)
      have hok : ¬ (n * 16 + hexDigitValue c < n * 16 ∨ n * 16 + hexDigitValue c > maxVal) := by
        omega
      rw [parseUintLoop, hd]
      simp only []
      rw [if_neg (by omega), if_neg hcut, hm1, hm2, if_neg hok]
      exact ih _ hbad2 hstep
    · rcases digitVal_nonhex c hc with hn | ⟨d, hd, hge⟩
      · rw [parseUintLoop, hn]
      · rw [parseUintLoop, hd]
        simp only []
        rw [if_pos hge]

/-! ## Stripping and the rejected lengths -/

theorem TrimPrefix_0x (t : List Nat) : TrimPrefix t (bytes "0x") = dropLeading0x t := by
  rw [bytes_0x]
  unfold TrimPrefix HasPrefix
  match t with
  | [] => simp [dropLeading0x]
  | [c] => simp [dropLeading0x]
  | c1 :: c2 :: rest =>
    by_cases h1 : c1 = 0x30
    · by_cases h2 : c2 = 0x78
      · subst h1 h2; simp [dropLeading0x]
      · subst h1
        have : dropLeading0x (0x30 :: c2 :: rest) = 0x30 :: c2 :: rest := by
          unfold dropLeading0x
          split
          · rename_i heq; simp at heq; exact absurd heq.1 h2
          · rfl
        simp [h2, this]
    · have : dropLeading0x (c1 :: c2 :: rest) = c1 :: c2 :: rest := by
        unfold dropLeading0x
        split
        · rename_i heq; simp at heq; exact absurd heq.1 h1
        · rfl
      simp [h1, this]

theorem TrimPrefix_hash (t : List Nat) : TrimPrefix t (bytes "#") = dropLeadingHash t := by
  rw [bytes_hash]
  unfold TrimPrefix HasPrefix
  match t with
  | [] => simp [dropLeadingHash]
  | c1 :: rest =>
    by_cases h1 : c1 = 0x23
    · subst h1; simp [dropLeadingHash]
    · have : dropLeadingHash (c1 :: rest) = c1 :: rest := by
        unfold dropLeadingHash
        split
        · rename_i heq; simp at heq; exact absurd heq.1 h1
        · rfl
      simp [h1, this]

theorem stripped_eq_spec (m : List Nat → List Nat) (s : List Nat) :
    stripped m s = specStripped m s := by
  unfold stripped specStripped
  rw [TrimPrefix_0x, TrimPrefix_hash]

/-- C5. Let `t` be the input lower-cased, with one leading `0x` removed if
present and then one leading `#` removed if present. When the length of `t` is
none of 3, 4, 6, 8, `parseColor` returns the value 0 and the error whose message
is `invalid length: ` followed by that length in decimal. -/
theorem parseColor_invalid_length (m : List Nat → List Nat) (s : List Nat)
    (h3 : (specStripped m s).length ≠ 3) (h4 : (specStripped m s).length ≠ 4)
    (h6 : (specStripped m s).length ≠ 6) (h8 : (specStripped m s).length ≠ 8) :
    parseColor m s
      = (0, some (GoError.Errorf
          (bytes "invalid length: " ++ bytes (Nat.repr (specStripped m s).length)))) := by
  rw [← stripped_eq_spec] at *
  exact parseColor_other m s h3 h4 h6 h8

/-- Instance of C5 at `0x0xfff`, with `#0xfff` and the empty string: each
prefix is removed once, in that order. -/
theorem parseColor_invalid_length_witness :
    (((specStripped id (bytes "0x0xfff")).length ≠ 3 ∧
        (specStripped id (bytes "0x0xfff")).length ≠ 4) ∧
      (specStripped id (bytes "0x0xfff")).length ≠ 6 ∧
      (specStripped id (bytes "0x0xfff")).length ≠ 8) ∧
    parseColor id (bytes "0x0xfff") = (0, some (GoError.Errorf (bytes "invalid length: 5"))) ∧
    specStripped id (bytes "0x0xfff") = bytes "0xfff" ∧
    parseColor id (bytes "#0xfff") = (0, some (GoError.Errorf (bytes "invalid length: 5"))) ∧
    specStripped id (bytes "#0xfff") = bytes "0xfff" ∧
    parseColor id (bytes "") = (0, some (GoError.Errorf (bytes "invalid length: 0"))) :=
  ⟨by decide, by
    rw [parseColor_invalid_length id (bytes "0x0xfff") (by decide) (by decide) (by decide)
      (by decide)]
    decide, by decide, by decide, by decide, by decide⟩

/-! ## Failed numeric parses -/

/-- Result of `ParseUint` on a string with a byte that is no hexadecimal digit, short
enough for the bit size: value 0 and a syntax error. -/
theorem ParseUint_bad (s : List Nat) (bitSize : Nat) (hb0 : 0 < bitSize) (hb : bitSize < 64)
    (hbad : ∃ c ∈ s, ¬ isHexDigit c) (hfit : 16 ^ s.length ≤ 2 ^ bitSize * 16) :
    ParseUint s bitSize = (0, some (syntaxError fnParseUint s)) := by
  unfold ParseUint
  split
  · rename_i he; rw [he]
  · have hpow : 2 ^ bitSize < 2 ^ 64 := Nat.pow_lt_pow_right (by norm_num) hb
    have hpos : 0 < 2 ^ bitSize := Nat.pow_pos (by norm_num)
    have hmv : ((1 <<< bitSize) % 2 ^ 64 + 2 ^ 64 - 1) % 2 ^ 64 = 2 ^ bitSize - 1 := by
      rw [Nat.shiftLeft_eq, Nat.one_mul, Nat.mod_eq_of_lt hpow]
      have : 2 ^ bitSize + 2 ^ 64 - 1 = (2 ^ bitSize - 1) + 2 ^ 64 := by omega
      rw [this, Nat.add_mod_right, Nat.mod_eq_of_lt (by omega)]
    simp only [if_neg (Nat.ne_of_gt hb0)]
    rw [if_neg (by omega), hmv]
    apply parseUintLoop_bad s _ (by omega) s 0 hbad
    have : 2 ^ bitSize - 1 + 1 = 2 ^ bitSize := by omega
    rw [this]
    simpa using hfit

theorem lowerByte_not_upper (c : Nat) : ¬ (0x41 ≤ lowerByte c ∧ lowerByte c ≤ 0x5A) := by
  unfold lowerByte isUpperByte
  split <;> rename_i hu <;> simp at hu <;> omega

/-- No upper-case ASCII letter is left in a lower-cased string, provided the
Unicode path leaves none. -/
theorem ToLower_no_upper (m : List Nat → List Nat)
    (hm : ∀ x, ∀ c ∈ m x, ¬ (0x41 ≤ c ∧ c ≤ 0x5A)) (s : List Nat) :
    ∀ c ∈ ToLower m s, ¬ (0x41 ≤ c ∧ c ≤ 0x5A) := by
  intro c hc
  unfold ToLower at hc
  split at hc
  · split at hc
    · obtain ⟨d, _, rfl⟩ := List.mem_map.mp hc
      exact lowerByte_not_upper d
    · rename_i hany
      intro hcu
      exact hany (List.any_eq_true.mpr ⟨c, hc, by simpa [isUpperByte] using hcu⟩)
  · exact hm s c hc

theorem mem_of_mem_TrimPrefix (t p : List Nat) (c : Nat) (h : c ∈ TrimPrefix t p) : c ∈ t := by
  unfold TrimPrefix at h
  split at h
  · exact List.mem_of_mem_drop h
  · exact h

theorem stripped_no_upper (m : List Nat → List Nat)
    (hm : ∀ x, ∀ c ∈ m x, ¬ (0x41 ≤ c ∧ c ≤ 0x5A)) (s : List Nat) :
    ∀ c ∈ stripped m s, ¬ (0x41 ≤ c ∧ c ≤ 0x5A) := by
  intro c hc
  unfold stripped at hc
  exact ToLower_no_upper m hm s c
    (mem_of_mem_TrimPrefix _ _ c (mem_of_mem_TrimPrefix _ _ c hc))

/-- Result of `ParseUint` on a string without upper-case letters whose length fits the bit
size: it fails exactly when some byte is not one of `0-9a-f`, and then with the
value 0 and a syntax error. -/
theorem ParseUint_lower (t : List Nat) (bitSize : Nat) (hb0 : 0 < bitSize) (hb : bitSize < 64)
    (hne : t ≠ []) (hfit : 16 ^ t.length ≤ 2 ^ bitSize)
    (hup : ∀ c ∈ t, ¬ (0x41 ≤ c ∧ c ≤ 0x5A)) :
    ((ParseUint t bitSize).2 ≠ none ↔ ∃ c ∈ t, ¬ isLowerHexDigit c) ∧
    ((ParseUint t bitSize).2 ≠ none →
      ParseUint t bitSize = (0, some (syntaxError fnParseUint t))) := by
  by_cases hall : ∀ c ∈ t, isLowerHexDigit c
  · have hhex : ∀ c ∈ t, isHexDigit c := by
      intro c hc
      have := hall c hc
      unfold isLowerHexDigit at this
      unfold isHexDigit
      omega
    have hp := ParseUint_hex t bitSize hb0 hb hne hhex hfit
    rw [hp]
    refine ⟨⟨fun h => absurd rfl h, ?_⟩, fun h => absurd rfl h⟩
    rintro ⟨c, hc, hn⟩
    exact absurd (hall c hc) hn
  · have hex : ∃ c ∈ t, ¬ isLowerHexDigit c := by
      by_contra hcon
      apply hall
      intro c hc
      by_contra hn
      exact hcon ⟨c, hc, hn⟩
    have hbad : ∃ c ∈ t, ¬ isHexDigit c := by
      obtain ⟨c, hc, hn⟩ := hex
      refine ⟨c, hc, ?_⟩
      have := hup c hc
      unfold isLowerHexDigit at hn
      unfold isHexDigit
      omega
    have hp := ParseUint_bad t bitSize hb0 hb hbad (by omega)
    rw [hp]
    exact ⟨⟨fun _ => hex, fun _ => by simp⟩, fun _ => rfl⟩

theorem value_on_zero :
    expandShortColor ((0xf000 + (0 &&& 0x0fff) % 2 ^ 16) % 2 ^ 16) = 0xFF000000 ∧
    expandShortColor ((0 &&& 0xffff) % 2 ^ 16) = 0 ∧
    (0xff000000 + 0 % 2 ^ 32) % 2 ^ 32 = 0xFF000000 ∧
    0 % 2 ^ 32 = 0 := by decide

/-- C8. Let `t` be the stripped form of the input and let its length be 3, 4, 6
or 8. Then `parseColor` returns an error exactly when `t` has a byte that is not
one of `0-9`, `a-f`; that error is the syntax error of `ParseUint` (never a range
error), and the value returned with it is `0xFF000000` for lengths 3 and 6 and
0 for lengths 4 and 8. The lower-casing of non-ASCII input, which is outside
this repository, is assumed to leave no upper-case ASCII letter (`hm`). -/
theorem parseColor_error (m : List Nat → List Nat)
    (hm : ∀ x, ∀ c ∈ m x, ¬ (0x41 ≤ c ∧ c ≤ 0x5A)) (s : List Nat)
    (hlen : (specStripped m s).length = 3 ∨ (specStripped m s).length = 4 ∨
      (specStripped m s).length = 6 ∨ (specStripped m s).length = 8) :
    ((parseColor m s).2 ≠ none ↔ ∃ c ∈ specStripped m s, ¬ isLowerHexDigit c) ∧
    ((parseColor m s).2 ≠ none →
      (parseColor m s).2 = some (syntaxError fnParseUint (specStripped m s)) ∧
      ((specStripped m s).length = 3 ∨ (specStripped m s).length = 6 →
        (parseColor m s).1 = 0xFF000000) ∧
      ((specStripped m s).length = 4 ∨ (specStripped m s).length = 8 →
        (parseColor m s).1 = 0)) := by
  rw [← stripped_eq_spec] at *
  have hup := stripped_no_upper m hm s
  have hne : stripped m s ≠ [] := by
    intro e; rw [e] at hlen; simp at hlen
  rcases hlen with h | h | h | h
  · obtain ⟨p1, p2⟩ := ParseUint_lower (stripped m s) 12 (by norm_num) (by norm_num) hne
      (by rw [h]; norm_num) hup
    rw [parseColor_len3 m s h]
    refine ⟨p1, fun he => ?_⟩
    have hp := p2 he
    rw [hp]
    refine ⟨rfl, fun _ => value_on_zero.1, fun hc => by omega⟩
  · obtain ⟨p1, p2⟩ := ParseUint_lower (stripped m s) 16 (by norm_num) (by norm_num) hne
      (by rw [h]; norm_num) hup
    rw [parseColor_len4 m s h]
    refine ⟨p1, fun he => ?_⟩
    have hp := p2 he
    rw [hp]
    refine ⟨rfl, fun hc => by omega, fun _ => value_on_zero.2.1⟩
  · obtain ⟨p1, p2⟩ := ParseUint_lower (stripped m s) 24 (by norm_num) (by norm_num) hne
      (by rw [h]; norm_num) hup
    rw [parseColor_len6 m s h]
    refine ⟨p1, fun he => ?_⟩
    have hp := p2 he
    rw [hp]
    refine ⟨rfl, fun _ => value_on_zero.2.2.1, fun hc => by omega⟩
  · obtain ⟨p1, p2⟩ := ParseUint_lower (stripped m s) 32 (by norm_num) (by norm_num) hne
      (by rw [h]; norm_num) hup
    rw [parseColor_len8 m s h]
    refine ⟨p1, fun he => ?_⟩
    have hp := p2 he
    rw [hp]
    refine ⟨rfl, fun hc => by omega, fun _ => value_on_zero.2.2.2⟩

theorem map_lowerByte_no_upper (x : List Nat) :
    ∀ c ∈ x.map lowerByte, ¬ (0x41 ≤ c ∧ c ≤ 0x5A) := by
  intro c hc
  obtain ⟨d, _, rfl⟩ := List.mem_map.mp hc
  exact lowerByte_not_upper d

/-- Instance of C8 at `zzz`. -/
theorem parseColor_error_witness :
    ((∀ x, ∀ c ∈ List.map lowerByte x, ¬ (0x41 ≤ c ∧ c ≤ 0x5A)) ∧
      ((specStripped (List.map lowerByte) (bytes "zzz")).length = 3 ∨
        (specStripped (List.map lowerByte) (bytes "zzz")).length = 4 ∨
        (specStripped (List.map lowerByte) (bytes "zzz")).length = 6 ∨
        (specStripped (List.map lowerByte) (bytes "zzz")).length = 8)) ∧
    ((parseColor (List.map lowerByte) (bytes "zzz")).2 ≠ none ↔
      ∃ c ∈ specStripped (List.map lowerByte) (bytes "zzz"), ¬ isLowerHexDigit c) ∧
    parseColor (List.map lowerByte) (bytes "zzz")
      = (0xFF000000, some (syntaxError fnParseUint (bytes "zzz"))) :=
  ⟨⟨map_lowerByte_no_upper, by decide⟩,
    (parseColor_error (List.map lowerByte) map_lowerByte_no_upper (bytes "zzz")
      (by decide)).1, by decide⟩

/-! ## Prefixes and letter case -/

/-- The result of `parseColor` is determined by the stripped string. -/
theorem parseColor_congr (m : List Nat → List Nat) (s s2 : List Nat)
    (h : stripped m s = stripped m s2) : parseColor m s = parseColor m s2 := by
  unfold stripped at h
  unfold parseColor
  simp only []
  rw [h]

theorem upperByte_hex (c : Nat) (h : isHexDigit c) :
    isHexDigit (upperByte c) ∧ lowerByte (upperByte c) = lowerByte c := by
  unfold isHexDigit at h
  have hc : c < 128 := by omega
  interval_cases c <;> first | (exfalso; revert h; decide) | decide

theorem lowerByte_idem (c : Nat) : lowerByte (lowerByte c) = lowerByte c := by
  unfold lowerByte isUpperByte
  simp only [decide_eq_true_eq]
  split_ifs <;> omega

theorem lowerByte_isHex (c : Nat) (h : isHexDigit c) : isHexDigit (lowerByte c) := by
  have := lowerByte_hex c h
  unfold isLowerHexDigit at this
  unfold isHexDigit
  omega

theorem ToUpper_ascii (mU : List Nat → List Nat) (s : List Nat) (h : ∀ c ∈ s, c < 0x80) :
    ToUpper mU s = s.map upperByte := by
  unfold ToUpper
  have hall : s.all (fun c => decide (c < 0x80)) = true := by
    simpa [List.all_eq_true] using h
  rw [if_pos hall]
  split
  · rfl
  · rename_i hany
    have hno : ∀ c ∈ s, isLowerByte c = false := by
      intro c hc
      by_contra hcon
      exact hany (List.any_eq_true.mpr ⟨c, hc, by simpa using hcon⟩)
    symm
    calc s.map upperByte = s.map id := by
          apply List.map_congr_left
          intro c hc
          simp [upperByte, hno c hc]
      _ = s := List.map_id s

/-- The stripped form of a prefixed string of hexadecimal digits. -/
theorem stripped_prefixed (m : List Nat → List Nat) (h : List Nat)
    (hhex : ∀ c ∈ h, isHexDigit c) :
    stripped m (bytes "0x" ++ h) = h.map lowerByte ∧
    stripped m (bytes "0X" ++ h) = h.map lowerByte ∧
    stripped m (bytes "#" ++ h) = h.map lowerByte ∧
    stripped m (bytes "0x#" ++ h) = h.map lowerByte := by
  have hl : ∀ c ∈ h.map lowerByte, isLowerHexDigit c := by
    intro c hc
    obtain ⟨d, hd, rfl⟩ := List.mem_map.mp hc
    exact lowerByte_hex d (hhex d hd)
  have hlt : ∀ c ∈ h, c < 0x80 := fun c hc => isHexDigit_lt c (hhex c hc)
  have hT := TrimPrefix_hex _ hl
  rw [TrimPrefix_0x, TrimPrefix_hash] at hT
  have e1 : bytes "0x" = [0x30, 0x78] := by decide
  have e2 : bytes "0X" = [0x30, 0x58] := by decide
  have e3 : bytes "#" = [0x23] := by decide
  have e4 : bytes "0x#" = [0x30, 0x78, 0x23] := by decide
  have l30 : lowerByte 0x30 = 0x30 := by decide
  have l78 : lowerByte 0x78 = 0x78 := by decide
  have l58 : lowerByte 0x58 = 0x78 := by decide
  have l23 : lowerByte 0x23 = 0x23 := by decide
  refine ⟨?_, ?_, ?_, ?_⟩
  · unfold stripped
    rw [ToLower_ascii m _ (by rw [e1]; intro c hc; simp at hc; rcases hc with rfl | rfl | hc
                              · norm_num
                              · norm_num
                              · exact hlt c hc)]
    rw [TrimPrefix_0x, TrimPrefix_hash, e1]
    simp only [List.map_append, List.map_cons, List.map_nil, l30, l78, List.cons_append,
      List.nil_append, dropLeading0x]
    exact hT.2
  · unfold stripped
    rw [ToLower_ascii m _ (by rw [e2]; intro c hc; simp at hc; rcases hc with rfl | rfl | hc
                              · norm_num
                              · norm_num
                              · exact hlt c hc)]
    rw [TrimPrefix_0x, TrimPrefix_hash, e2]
    simp only [List.map_append, List.map_cons, List.map_nil, l30, l58, List.cons_append,
      List.nil_append, dropLeading0x]
    exact hT.2
  · unfold stripped
    rw [ToLower_ascii m _ (by rw [e3]; intro c hc; simp at hc; rcases hc with rfl | hc
                              · norm_num
                              · exact hlt c hc)]
    rw [TrimPrefix_0x, TrimPrefix_hash, e3]
    simp only [List.map_append, List.map_cons, List.map_nil, l23, List.cons_append,
      List.nil_append]
    have : dropLeading0x (0x23 :: List.map lowerByte h) = 0x23 :: List.map lowerByte h := by
      unfold dropLeading0x
      split
      · rename_i heq; simp at heq
      · rfl
    rw [this]
    simp only [dropLeadingHash]
  · unfold stripped
    rw [ToLower_ascii m _ (by rw [e4]; intro c hc; simp at hc; rcases hc with rfl | rfl | rfl | hc
                              · norm_num
                              · norm_num
                              · norm_num
                              · exact hlt c hc)]
    rw [TrimPrefix_0x, TrimPrefix_hash, e4]
    simp only [List.map_append, List.map_cons, List.map_nil, l30, l78, l23, List.cons_append,
      List.nil_append, dropLeading0x, dropLeadingHash]

/-- C6. For a string `h` of hexadecimal digits of any length, `parseColor`
gives the same value and the same error on `0x` + `h`, `0X` + `h`, `#` + `h`,
`0x#` + `h`, `h` upper-cased and `h` lower-cased as on `h` itself. -/
theorem parseColor_prefix_case (m mU : List Nat → List Nat) (h : List Nat)
    (hhex : ∀ c ∈ h, isHexDigit c) :
    parseColor m (bytes "0x" ++ h) = parseColor m h ∧
    parseColor m (bytes "0X" ++ h) = parseColor m h ∧
    parseColor m (bytes "#" ++ h) = parseColor m h ∧
    parseColor m (bytes "0x#" ++ h) = parseColor m h ∧
    parseColor m (ToUpper mU h) = parseColor m h ∧
    parseColor m (ToLower m h) = parseColor m h := by
  obtain ⟨p1, p2, p3, p4⟩ := stripped_prefixed m h hhex
  have hs := stripped_hex m h hhex
  have hlt : ∀ c ∈ h, c < 0x80 := fun c hc => isHexDigit_lt c (hhex c hc)
  refine ⟨parseColor_congr m _ _ (by rw [p1, hs]), parseColor_congr m _ _ (by rw [p2, hs]),
    parseColor_congr m _ _ (by rw [p3, hs]), parseColor_congr m _ _ (by rw [p4, hs]),
    parseColor_congr m _ _ ?_, parseColor_congr m _ _ ?_⟩
  · rw [ToUpper_ascii mU h hlt, hs, stripped_hex m _ (by
      intro c hc
      obtain ⟨d, hd, rfl⟩ := List.mem_map.mp hc
      exact (upperByte_hex d (hhex d hd)).1)]
    rw [List.map_map]
    apply List.map_congr_left
    intro c hc
    exact (upperByte_hex c (hhex c hc)).2
  · rw [ToLower_ascii m h hlt, hs, stripped_hex m _ (by
      intro c hc
      obtain ⟨d, hd, rfl⟩ := List.mem_map.mp hc
      exact lowerByte_isHex d (hhex d hd))]
    rw [List.map_map]
    apply List.map_congr_left
    intro c _
    exact lowerByte_idem c

/-- Instance of C6 at `Ff0000`, with the documented values. -/
theorem parseColor_prefix_case_witness :
    (∀ c ∈ bytes "Ff0000", isHexDigit c) ∧
    parseColor id (bytes "0x" ++ bytes "Ff0000") = parseColor id (bytes "Ff0000") ∧
    parseColor id (bytes "#ff0000") = (0xffff0000, none) ∧
    parseColor id (bytes "0xFF0000") = (0xffff0000, none) ∧
    parseColor id (bytes "0x#Ff0000") = (0xffff0000, none) :=
  ⟨by decide, (parseColor_prefix_case id id (bytes "Ff0000") (by decide)).1,
    by decide, by decide, by decide⟩

/-! ## Eight digits -/

theorem hexChar_spec (d : Nat) (h : d < 16) :
    isLowerHexDigit (hexChar d) ∧ hexDigitValue (hexChar d) = d := by
  interval_cases d <;> decide

theorem hexValue_hex8 (v : Nat) (hv : v < 2 ^ 32) : hexValue (hex8 v) = v := by
  unfold hex8 hexValue
  simp only [List.foldl_cons, List.foldl_nil]
  have key : ∀ x : Nat, hexDigitValue (hexChar (x % 16)) = x % 16 :=
    fun x => (hexChar_spec _ (Nat.mod_lt _ (by norm_num))).2
  rw [key, key, key, key, key, key, key, key]
  simp only [Nat.reducePow] at hv ⊢
  omega

theorem hex8_hex (v : Nat) : (hex8 v).length = 8 ∧ ∀ c ∈ hex8 v, isHexDigit c := by
  refine ⟨rfl, ?_⟩
  intro c hc
  unfold hex8 at hc
  simp only [List.mem_cons, List.mem_singleton, List.not_mem_nil, or_false] at hc
  have key : ∀ d, d < 16 → isHexDigit (hexChar d) := by
    intro d hd
    have := (hexChar_spec d hd).1
    unfold isLowerHexDigit at this
    unfold isHexDigit
    omega
  rcases hc with rfl | rfl | rfl | rfl | rfl | rfl | rfl | rfl <;>
    exact key _ (Nat.mod_lt _ (by norm_num))

/-- C4. For a string of eight hexadecimal digits (either case) `parseColor`
returns no error and exactly the 32-bit number the string denotes; and every
32-bit value, written as eight hexadecimal digits, is parsed back to itself. -/
theorem parseColor_aarrggbb (m : List Nat → List Nat) (s : List Nat) (hlen : s.length = 8)
    (hhex : ∀ c ∈ s, isHexDigit c) (v : Nat) (hv : v < 2 ^ 32) :
    parseColor m s = (hexValue s, none) ∧ hexValue s < 2 ^ 32 ∧
    parseColor m (hex8 v) = (v, none) := by
  have key : ∀ t : List Nat, t.length = 8 → (∀ c ∈ t, isHexDigit c) →
      parseColor m t = (hexValue t, none) ∧ hexValue t < 2 ^ 32 := by
    intro t htl hth
    have hb : hexValue t < 2 ^ 32 := by
      have := hexValue_lt _ hth
      rw [htl] at this
      omega
    have hne : t ≠ [] := by intro e; rw [e] at htl; simp at htl
    have hp := ParseUint_stripped_hex m t 32 (by norm_num) (by norm_num) hne hth
      (by rw [htl]; norm_num)
    have hl : (stripped m t).length = 8 := by rw [stripped_hex m _ hth]; simpa using htl
    refine ⟨?_, hb⟩
    rw [parseColor_len8 m _ hl, hp]
    congr 1
    exact Nat.mod_eq_of_lt hb
  refine ⟨(key s hlen hhex).1, (key s hlen hhex).2, ?_⟩
  rw [(key (hex8 v) (hex8_hex v).1 (hex8_hex v).2).1, hexValue_hex8 v hv]

/-- Instance of C4 at `12345678`. -/
theorem parseColor_aarrggbb_witness :
    ((bytes "12345678").length = 8 ∧ (∀ c ∈ bytes "12345678", isHexDigit c) ∧
      0x12345678 < 2 ^ 32) ∧
    parseColor id (bytes "12345678") = (0x12345678, none) ∧
    hex8 0x12345678 = bytes "12345678" :=
  ⟨by decide, by
    rw [(parseColor_aarrggbb id (bytes "12345678") (by decide) (by decide) 0x12345678
      (by decide)).1]
    decide, by decide⟩

/-! ## The event loop and the request sequence -/

/-- Every run of the loop starts by calling `WaitForEvent`. -/
theorem eventLoop_head (evs : List (Option (List Nat) × Option (List Nat))) :
    ∃ rest, (eventLoop evs).1 = Step.WaitForEvent :: rest := by
  match evs with
  | [] => exact ⟨[], rfl⟩
  | (ev, xerr) :: rest =>
    unfold eventLoop
    split
    · exact ⟨_, rfl⟩
    · exact ⟨_, rfl⟩

/-- One pass of the loop body on a result that is not the closing one. -/
theorem eventLoop_cons (r : Option (List Nat) × Option (List Nat))
    (rest : List (Option (List Nat) × Option (List Nat))) (h : ¬ (r.1 = none ∧ r.2 = none)) :
    eventLoop (r :: rest)
      = (Step.WaitForEvent :: (linesFor r ++ (eventLoop rest).1), (eventLoop rest).2) := by
  obtain ⟨ev, xerr⟩ := r
  have h2 : ¬ (ev = none ∧ xerr = none) := h
  conv_lhs => unfold eventLoop
  rw [if_neg h2]
  cases ev <;> cases xerr <;> simp [linesFor]

/-- C10. When the results before the first one with both event and error
`nil` are `pre`, the loop calls `WaitForEvent` once per result, prints for each
result of `pre` its `Event: ` line and then its `Error: ` line (those present)
and nothing else, then prints the closing line and exits with status 0,
whatever follows. On results none of which has both parts `nil` the loop has
not stopped: it is waiting in the next `WaitForEvent`. -/
theorem eventLoop_spec (pre post : List (Option (List Nat) × Option (List Nat)))
    (hpre : ∀ r ∈ pre, ¬ (r.1 = none ∧ r.2 = none)) :
    eventLoop (pre ++ (none, none) :: post)
      = (pre.flatMap (fun r => Step.WaitForEvent :: linesFor r)
          ++ Step.WaitForEvent :: closing, Outcome.exited 0) ∧
    eventLoop pre
      = (pre.flatMap (fun r => Step.WaitForEvent :: linesFor r) ++ [Step.WaitForEvent],
          Outcome.waiting) := by
  induction pre with
  | nil =>
    constructor
    · simp [eventLoop, closing]
    · simp [eventLoop]
  | cons r pre ih =>
    obtain ⟨ih1, ih2⟩ := ih (fun x hx => hpre x (by simp [hx]))
    have hr := hpre r (by simp)
    constructor
    · rw [List.cons_append, eventLoop_cons r _ hr, ih1]
      simp [List.flatMap_cons]
    · rw [eventLoop_cons r _ hr, ih2]
      simp [List.flatMap_cons]

/-- Instance of C10 on three results followed by the closing one. -/
theorem eventLoop_spec_witness :
    (∀ r ∈ [(some (bytes "KeyPress"), none),
        (some (bytes "MapNotify"), some (bytes "BadWindow")),
        ((none : Option (List Nat)), some (bytes "BadMatch"))], ¬ (r.1 = none ∧ r.2 = none)) ∧
    eventLoop ([(some (bytes "KeyPress"), none),
        (some (bytes "MapNotify"), some (bytes "BadWindow")),
        (none, some (bytes "BadMatch"))] ++ (none, none) :: [(some (bytes "KeyRelease"), none)])
      = ([Step.WaitForEvent, Step.write (bytes "Event: KeyPress\n"),
          Step.WaitForEvent, Step.write (bytes "Event: MapNotify\n"),
          Step.write (bytes "Error: BadWindow\n"),
          Step.WaitForEvent, Step.write (bytes "Error: BadMatch\n"),
          Step.WaitForEvent, Step.write (bytes "Both event and error are nil. Exiting...\n"),
          Step.exit 0], Outcome.exited 0) :=
  ⟨by decide, by
    rw [(eventLoop_spec _ _ (by decide)).1]
    decide⟩

theorem runClient_eq (bgColor : Nat) (w : World) (hconn : w.connErr = none) :
    (runClient bgColor w).1 = setupSteps bgColor w ++ (eventLoop w.events).1 := by
  unfold runClient setupSteps
  rw [hconn]
  cases w.mapErr <;> rfl

theorem beforeLoop_setup (bgColor : Nat) (w : World) (rest : List Step) :
    beforeLoop (setupSteps bgColor w ++ Step.WaitForEvent :: rest) = setupSteps bgColor w := by
  unfold beforeLoop setupSteps
  cases w.mapErr <;> simp [List.takeWhile]

/-- C9. On a run of `main` that reaches `xgb.NewConn` and gets a connection,
the steps before the first `WaitForEvent` are the setup steps, whose requests
are, in order, `CreateWindow`, `ChangeProperty`, `ChangeWindowAttributes` and
`MapWindowChecked`; the first `WaitForEvent` follows them whether `Check`
returned an error or not (only the printed line, part of `setupSteps`, differs). -/
theorem main_request_sequence (m : List Nat → List Nat) (w : World)
    (hconn : w.connErr = none) (hreach : Step.NewConn ∈ (main m w).1) :
    ∃ bgColor rest,
      (main m w).1 = setupSteps bgColor w ++ Step.WaitForEvent :: rest ∧
      beforeLoop (main m w).1 = setupSteps bgColor w ∧
      (beforeLoop (main m w).1).filter Step.isRequest
        = [Step.CreateWindow w.screen.RootDepth w.wid w.screen.Root 0 0 500 500 0
            WindowClassInputOutput w.screen.RootVisual 0 [],
          Step.ChangeProperty PropModeReplace w.wid AtomWmName AtomString 8 2 (bytes "cw"),
          Step.ChangeWindowAttributes w.wid (CwBackPixel ||| CwEventMask)
            [bgColor, EventMaskStructureNotify ||| EventMaskKeyPress ||| EventMaskKeyRelease],
          Step.MapWindowChecked w.wid] := by
  have key : ∀ bg, (main m w).1 = (runClient bg w).1 → ∃ bgColor rest,
      (main m w).1 = setupSteps bgColor w ++ Step.WaitForEvent :: rest ∧
      beforeLoop (main m w).1 = setupSteps bgColor w ∧
      (beforeLoop (main m w).1).filter Step.isRequest
        = [Step.CreateWindow w.screen.RootDepth w.wid w.screen.Root 0 0 500 500 0
            WindowClassInputOutput w.screen.RootVisual 0 [],
          Step.ChangeProperty PropModeReplace w.wid AtomWmName AtomString 8 2 (bytes "cw"),
          Step.ChangeWindowAttributes w.wid (CwBackPixel ||| CwEventMask)
            [bgColor, EventMaskStructureNotify ||| EventMaskKeyPress ||| EventMaskKeyRelease],
          Step.MapWindowChecked w.wid] := by
    intro bg hbg
    obtain ⟨rest, hrest⟩ := eventLoop_head w.events
    have e : (main m w).1 = setupSteps bg w ++ Step.WaitForEvent :: rest := by
      rw [hbg, runClient_eq bg w hconn, hrest]
    refine ⟨bg, rest, e, ?_, ?_⟩
    · rw [e, beforeLoop_setup]
    · rw [e, beforeLoop_setup]
      unfold setupSteps
      cases w.mapErr <;> rfl
  unfold main at hreach
  split at hreach
  · rename_i hargs
    exact key 0xffffffff (by unfold main; rw [hargs])
  · rename_i a hargs
    split at hreach
    · simp at hreach
    · rename_i bg hp
      exact key bg (by unfold main; rw [hargs]; simp only []; rw [hp])
  · exfalso
    simp [usage] at hreach

/-- Instance of C9 on `sampleWorld`, whose map request fails. -/
theorem main_request_sequence_witness :
    (sampleWorld.connErr = none ∧ Step.NewConn ∈ (main id sampleWorld).1) ∧
    ∃ bgColor rest,
      (main id sampleWorld).1 = setupSteps bgColor sampleWorld ++ Step.WaitForEvent :: rest ∧
      beforeLoop (main id sampleWorld).1 = setupSteps bgColor sampleWorld ∧
      (beforeLoop (main id sampleWorld).1).filter Step.isRequest
        = [Step.CreateWindow sampleWorld.screen.RootDepth sampleWorld.wid
            sampleWorld.screen.Root 0 0 500 500 0 WindowClassInputOutput
            sampleWorld.screen.RootVisual 0 [],
          Step.ChangeProperty PropModeReplace sampleWorld.wid AtomWmName AtomString 8 2
            (bytes "cw"),
          Step.ChangeWindowAttributes sampleWorld.wid (CwBackPixel ||| CwEventMask)
            [bgColor, EventMaskStructureNotify ||| EventMaskKeyPress ||| EventMaskKeyRelease],
          Step.MapWindowChecked sampleWorld.wid] :=
  ⟨⟨rfl, by decide⟩, main_request_sequence id sampleWorld rfl (by decide)⟩

end Cw
